import Mathlib

/-!
Shallow embedding of the LemLib-FS virtual file system (src/main.cpp).

Strings are modelled at the character level; the C++ code operates on bytes,
but every operation embedded here (search for `'/'`, search for `'\n'`,
substring from an occurrence of a searched-for pattern) splits a UTF-8 byte
string only at ASCII bytes, where byte positions and character positions
single out the same split, so the character-level model is faithful for all
valid UTF-8 inputs.

The persistent state is `VFSState`: the parsed content of `index.txt`
(`index`, a list of `lemlibFile` records) together with the content of every
sector file (`sectors`, a total map from file name to content, absent files
reading as `""`, which is how `std::ofstream`/`std::ifstream` behave for the
sector files the code touches).  Every operation re-reads `index.txt`
through the parser, so the parsed record list is the program's working
representation.  A `createFile` append is modelled as appending the *parse*
of the bytes it writes (`readFileIndex (serializeEntry …)`), which mangles a
path containing a line break into several records exactly as the program
does.  Every record the parser produces has a separator-free, break-free
sector and a break-free name (records are `getline` lines split at their
last separator), and on such records save followed by load is the identity
— proved below — so `deleteFile`'s full rewrite is modelled by the record
list it writes.

Fallible operations return `Except VFSError α` together with the state left
behind: the C++ functions mutate the on-disk state before some of their
throw sites, so the state component is meaningful on the error path too.
-/

deriving instance DecidableEq for Except

namespace LemLibFS

/-- Decimal digit characters of `n`, least significant first, computed with
explicit fuel so that the definition is structurally recursive (`fuel ≥ n`
suffices; the program always calls it through `to_string`). -/
def toDigitsRev (fuel n : Nat) : List Char :=
  match fuel with
  | 0 => []
  | fuel + 1 => if n = 0 then [] else Nat.digitChar (n % 10) :: toDigitsRev fuel (n / 10)

/-- Embedding of the repository's `to_string` helper (an `std::ostringstream`
print of an `int`): the decimal rendering of a non-negative integer, most
significant digit first, with `0` rendered as `"0"`. -/
def to_string (n : Nat) : String :=
  if n = 0 then "0" else String.mk (toDigitsRev n n).reverse

/-- Embedding of `struct lemlibFile`: one record of the index file. -/
structure lemlibFile where
  name : String
  sector : String
deriving DecidableEq

/-- The four exception tags thrown by the program. -/
inductive VFSError where
  | vfsInitFailed
  | fileNotFound
  | fileAlreadyExists
  | cannotOpenFile
deriving DecidableEq

/-- The persistent state: parsed index-file content plus sector-file contents. -/
structure VFSState where
  index : List lemlibFile
  sectors : String → String

/-- The state right after `initVFS` on empty storage: empty index, every
sector file absent (reading as empty). -/
def initialState : VFSState := ⟨[], fun _ => ""⟩

/-- Embedding of the path normalization repeated at the top of every
operation: `if (filePath.find("/") != 0) filePath = "/" + filePath;`. -/
def normalizePath (p : String) : String :=
  if p.data.head? = some '/' then p else "/" ++ p

/-- Embedding of `fileExists` (main.cpp lines 181-192): normalize, then scan
the index for an entry whose name equals the normalized path. -/
def fileExists (s : VFSState) (path : String) : Bool :=
  let filePath := normalizePath path
  s.index.any (fun file => file.name = filePath)

/-- Embedding of `getFileSector` (main.cpp lines 109-122): the sector of the
first index entry whose name equals the normalized path, if any. -/
def getFileSector (s : VFSState) (path : String) : Option String :=
  let filePath := normalizePath path
  (s.index.find? (fun file => file.name = filePath)).map lemlibFile.sector

/-- Embedding of the slot scan inside `createFile` (main.cpp lines 264-268):
`int sector = 0; for (file : index) if (file.sector == to_string(sector)) sector++;`.
A single in-order pass, not a search for the global minimum. -/
def allocate (index : List lemlibFile) : Nat :=
  index.foldl (fun sector file => if file.sector = to_string sector then sector + 1 else sector) 0

/-- Embedding of `std::getline` iterated to exhaustion with delimiter `'\n'`:
the list of delimiter-free pieces, the final piece dropped when it is empty
(`getline` fails immediately at end of input). -/
def splitNl (cs : List Char) : List (List Char) :=
  match cs with
  | [] => []
  | c :: rest =>
    if c = '\n' then [] :: splitNl rest
    else (c :: (splitNl rest).headD []) :: (splitNl rest).tail

/-- Text written by a loop of `stream << line << std::endl`: every piece
followed by one line break. -/
def unsplitNl (ls : List (List Char)) : List Char :=
  match ls with
  | [] => []
  | l :: ls => l ++ '\n' :: unsplitNl ls

/-- Content a `write` stores for input `data`, and equally the text `read`
rebuilds from a file's lines: split at line breaks, then emit every piece
with a trailing line break. -/
def linesOut (data : String) : String :=
  String.mk (unsplitNl (splitNl data.data))

/-- Index line written for one entry (`indexFile << name << "/" << sector
<< std::endl`, main.cpp lines 230 and 270). -/
def serializeEntry (e : lemlibFile) : String :=
  e.name ++ "/" ++ e.sector ++ "\n"

/-- Full index-file content written by a rewrite of the index. -/
def saveIndex (entries : List lemlibFile) : String :=
  match entries with
  | [] => ""
  | e :: rest => serializeEntry e ++ saveIndex rest

/-- Split a character list around the last occurrence of `'/'`: `some (before,
after)` when a `'/'` is present, `none` otherwise. -/
def splitAtLastSlash (cs : List Char) : Option (List Char × List Char) :=
  match cs with
  | [] => none
  | c :: rest =>
    match splitAtLastSlash rest with
    | some (b, a) => some (c :: b, a)
    | none => if c = '/' then some ([], rest) else none

/-- Embedding of the per-line parse in `readFileIndex` (main.cpp lines 93-99):
`name = line.substr(0, line.find_last_of("/")); sector =
line.substr(line.find_last_of("/") + 1)`.  When the line holds no separator,
`find_last_of` yields `npos` and both `substr` calls return the whole line
(`npos + 1` wraps to `0`). -/
def parseIndexLine (line : String) : lemlibFile :=
  match splitAtLastSlash line.data with
  | some (b, a) => ⟨String.mk b, String.mk a⟩
  | none => ⟨line, line⟩

/-- Embedding of `readFileIndex` (main.cpp lines 84-102) as a function of the
index file's content: one parsed entry per `getline` line. -/
def readFileIndex (content : String) : List lemlibFile :=
  (splitNl content.data).map (fun cs => parseIndexLine (String.mk cs))

/-- Embedding of `deleteFile` (main.cpp lines 213-233): throw `FILE_NOT_FOUND`
if no entry matches; otherwise truncate the matched entry's sector file to
empty and rewrite the index keeping exactly the lines whose name differs. -/
def deleteFile (s : VFSState) (path : String) : Except VFSError Unit × VFSState :=
  let filePath := normalizePath path
  if fileExists s filePath then
    let sec := (getFileSector s filePath).getD ""
    let s1 : VFSState := ⟨s.index, fun k => if k = sec then "" else s.sectors k⟩
    (Except.ok (), ⟨s1.index.filter (fun line => line.name ≠ filePath), s1.sectors⟩)
  else
    (Except.error VFSError.fileNotFound, s)

/-- Embedding of the tail of `createFile` (main.cpp lines 263-279): allocate a
slot, append the raw bytes `filePath + "/" + sector + "\n"` to the index
file, then `std::ofstream sectorFile; if (!sectorFile.is_open()) throw
cannotOpenFile;`.  The stream is tested before `open` is ever called, and a
default-constructed `std::ofstream` is closed, so this throw is always taken:
the sector file is never created/truncated and the allocated slot is never
returned.  Since every later operation re-reads `index.txt` through the
parser, the state gains the *parse* of the appended bytes
(`readFileIndex (serializeEntry …)`): one record `⟨filePath, slot⟩` when
`filePath` is free of line breaks, but several mangled records when it is
not — e.g. the bytes for path `"/x\ny"` parse back as entries `⟨"", "x"⟩`
and `⟨"y", "0"⟩`, exactly as in the program. -/
def createRest (s : VFSState) (filePath : String) : Except VFSError String × VFSState :=
  let sector := allocate s.index
  (Except.error VFSError.cannotOpenFile,
    ⟨s.index ++ readFileIndex (serializeEntry ⟨filePath, to_string sector⟩), s.sectors⟩)

/-- Embedding of `createFile` (main.cpp lines 248-280): normalize; if the path
exists, delete it when `overwrite` is set and throw `FILE_ALREADY_EXISTS`
otherwise; then run the allocation/append tail (`createRest`). -/
def createFile (s : VFSState) (path : String) (overwrite : Bool) :
    Except VFSError String × VFSState :=
  let filePath := normalizePath path
  if fileExists s filePath then
    if overwrite then
      match deleteFile s filePath with
      | (Except.error e, s1) => (Except.error e, s1)
      | (Except.ok _, s1) => createRest s1 filePath
    else
      (Except.error VFSError.fileAlreadyExists, s)
  else
    createRest s filePath

/-- Embedding of `write` (main.cpp lines 297-313): normalize; when the path
has no entry, run `createFile(filePath)` first and propagate its exception;
then replace the entry's sector-file content with the line-broken form of
`data` and return the sector. -/
def write (s : VFSState) (path data : String) : Except VFSError String × VFSState :=
  let filePath := normalizePath path
  if fileExists s filePath then
    let sec := (getFileSector s filePath).getD ""
    (Except.ok sec, ⟨s.index, fun k => if k = sec then linesOut data else s.sectors k⟩)
  else
    match createFile s filePath true with
    | (Except.error e, s1) => (Except.error e, s1)
    | (Except.ok _, s1) =>
      let sec := (getFileSector s1 filePath).getD ""
      (Except.ok sec, ⟨s1.index, fun k => if k = sec then linesOut data else s1.sectors k⟩)

/-- Embedding of `read` (main.cpp lines 331-349): normalize; throw
`FILE_NOT_FOUND` when no entry matches; otherwise rebuild the sector file's
lines with a line break after each. -/
def read (s : VFSState) (path : String) : Except VFSError String :=
  let filePath := normalizePath path
  if fileExists s filePath then
    Except.ok (linesOut (s.sectors ((getFileSector s filePath).getD "")))
  else
    Except.error VFSError.fileNotFound

/-- First index at which `pat` occurs as a contiguous sublist of the second
argument (`std::string::find`): `none` models `npos`. -/
def firstOccur (pat : List Char) (cs : List Char) : Option Nat :=
  match cs with
  | [] => if pat = [] then some 0 else none
  | c :: rest =>
    if pat.isPrefixOf (c :: rest) then some 0
    else (firstOccur pat rest).map (· + 1)

/-- Embedding of `listDirectory` (main.cpp lines 139-166): normalize the
directory; for every index entry containing it as a substring, drop
everything through the first occurrence, collapse a remainder holding a
further separator to its first segment plus `"/"` when not recursive, and
collect first occurrences only. -/
def listDirectory (s : VFSState) (dir : String) (recursive : Bool) : List String :=
  let directory := normalizePath dir
  s.index.foldl
    (fun files line =>
      match firstOccur directory.data line.name.data with
      | none => files
      | some i =>
        let rem := line.name.data.drop (i + directory.data.length)
        let rem := if rem.contains '/' && !recursive
                   then rem.takeWhile (fun c => c ≠ '/') ++ ['/']
                   else rem
        let name := String.mk rem
        if files.contains name then files else files ++ [name])
    []

/-- States reachable from empty storage through the three mutating
operations, each step keeping the state the operation leaves behind whether
it returns or throws, where every path handed to `create` and `write` is
free of line breaks (`delete` is unrestricted).  The restriction delimits
the reachability class of the amended C9 invariant: a path with a line
break is appended as bytes that parse back as several mangled records —
`create("x\ny")` stores entries named `""` and `"y"` — so no leading-slash
invariant survives it. -/
inductive Reachable : VFSState → Prop where
  | init : Reachable initialState
  | create {s : VFSState} (p : String) (ow : Bool) :
      '\n' ∉ p.data → Reachable s → Reachable (createFile s p ow).2
  | deleteStep {s : VFSState} (p : String) :
      Reachable s → Reachable (deleteFile s p).2
  | writeStep {s : VFSState} (p d : String) :
      '\n' ∉ p.data → Reachable s → Reachable (write s p d).2

theorem normalizePath_head (p : String) : (normalizePath p).data.head? = some '/' := by
  unfold normalizePath
  split
  · next h => exact h
  · rfl

theorem normalizePath_of_head (q : String) (h : q.data.head? = some '/') :
    normalizePath q = q := by
  simp [normalizePath, h]

theorem normalizePath_idem (p : String) :
    normalizePath (normalizePath p) = normalizePath p :=
  normalizePath_of_head _ (normalizePath_head p)

theorem normalizePath_ne_empty (p : String) : normalizePath p ≠ "" := by
  intro h
  have := normalizePath_head p
  rw [h] at this
  simp at this

theorem fileExists_normalize (s : VFSState) (p : String) :
    fileExists s (normalizePath p) = fileExists s p := by
  unfold fileExists
  rw [normalizePath_idem]

theorem getFileSector_normalize (s : VFSState) (p : String) :
    getFileSector s (normalizePath p) = getFileSector s p := by
  unfold getFileSector
  rw [normalizePath_idem]

theorem toDigitsRev_eq_digits (fuel : Nat) : ∀ n : Nat, n ≤ fuel →
    toDigitsRev fuel n = (Nat.digits 10 n).map Nat.digitChar := by
  induction fuel with
  | zero =>
    intro n hn
    obtain rfl : n = 0 := Nat.le_zero.mp hn
    simp [toDigitsRev]
  | succ fuel ih =>
    intro n hn
    show (if n = 0 then [] else Nat.digitChar (n % 10) :: toDigitsRev fuel (n / 10)) = _
    by_cases h0 : n = 0
    · simp [h0]
    · rw [if_neg h0, Nat.digits_def' (by norm_num : (1 : Nat) < 10) (Nat.pos_of_ne_zero h0),
        List.map_cons]
      congr 1
      apply ih
      have : n / 10 < n := Nat.div_lt_self (Nat.pos_of_ne_zero h0) (by norm_num)
      omega

theorem to_string_eq_digits (n : Nat) :
    to_string n
      = String.mk (((if n = 0 then [0] else Nat.digits 10 n).map Nat.digitChar).reverse) := by
  unfold to_string
  by_cases h0 : n = 0
  · subst h0
    decide
  · rw [if_neg h0, if_neg h0, toDigitsRev_eq_digits n n le_rfl]

theorem digitChar_inj_lt : ∀ d < 10, ∀ e < 10, Nat.digitChar d = Nat.digitChar e → d = e := by
  decide

theorem map_digitChar_inj : ∀ l1 l2 : List Nat, (∀ d ∈ l1, d < 10) → (∀ d ∈ l2, d < 10) →
    l1.map Nat.digitChar = l2.map Nat.digitChar → l1 = l2 := by
  intro l1
  induction l1 with
  | nil =>
    intro l2 _ _ h
    cases l2 with
    | nil => rfl
    | cons e l2 => simp at h
  | cons d l1 ih =>
    intro l2 h1 h2 h
    cases l2 with
    | nil => simp at h
    | cons e l2 =>
      simp only [List.map_cons, List.cons.injEq] at h
      obtain ⟨hde, ht⟩ := h
      have hd : d = e :=
        digitChar_inj_lt d (h1 d (List.mem_cons_self _ _)) e (h2 e (List.mem_cons_self _ _)) hde
      rw [hd, ih l2 (fun x hx => h1 x (List.mem_cons_of_mem _ hx))
        (fun x hx => h2 x (List.mem_cons_of_mem _ hx)) ht]

theorem to_string_inj {m n : Nat} (h : to_string m = to_string n) : m = n := by
  rw [to_string_eq_digits, to_string_eq_digits] at h
  have hdata : ((if m = 0 then [0] else Nat.digits 10 m).map Nat.digitChar).reverse
      = ((if n = 0 then [0] else Nat.digits 10 n).map Nat.digitChar).reverse :=
    congrArg String.data h
  have hbound : ∀ k : Nat, ∀ d ∈ (if k = 0 then [0] else Nat.digits 10 k), d < 10 := by
    intro k d hd
    by_cases hk : k = 0
    · rw [if_pos hk] at hd
      simp at hd
      omega
    · rw [if_neg hk] at hd
      exact Nat.digits_lt_base (by norm_num) hd
  have hAB : (if m = 0 then [0] else Nat.digits 10 m) = (if n = 0 then [0] else Nat.digits 10 n) :=
    map_digitChar_inj _ _ (hbound m) (hbound n) (List.reverse_injective hdata)
  by_cases hm : m = 0 <;> by_cases hn : n = 0
  · omega
  · rw [if_pos hm, if_neg hn] at hAB
    have hof := Nat.ofDigits_digits 10 n
    rw [← hAB] at hof
    simp [Nat.ofDigits] at hof
    omega
  · rw [if_neg hm, if_pos hn] at hAB
    have hof := Nat.ofDigits_digits 10 m
    rw [hAB] at hof
    simp [Nat.ofDigits] at hof
    omega
  · rw [if_neg hm, if_neg hn] at hAB
    have h1 := Nat.ofDigits_digits 10 m
    have h2 := Nat.ofDigits_digits 10 n
    rw [hAB] at h1
    omega

theorem allocate_congr_map (entries : List lemlibFile) : ∀ ns : List Nat, ∀ acc : Nat,
    entries.map lemlibFile.sector = ns.map to_string →
    entries.foldl (fun sector file => if file.sector = to_string sector then sector + 1 else sector)
        acc
      = ns.foldl (fun sector x => if x = sector then sector + 1 else sector) acc := by
  induction entries with
  | nil =>
    intro ns acc h
    obtain rfl : ns = [] := List.map_eq_nil_iff.mp h.symm
    rfl
  | cons e es ih =>
    intro ns acc h
    cases ns with
    | nil => simp at h
    | cons x ns =>
      simp only [List.map_cons, List.cons.injEq] at h
      obtain ⟨h1, h2⟩ := h
      simp only [List.foldl_cons]
      have hcond : (if e.sector = to_string acc then acc + 1 else acc)
          = (if x = acc then acc + 1 else acc) := by
        rw [h1]
        by_cases hx : x = acc
        · simp [hx]
        · rw [if_neg hx, if_neg (fun hc => hx (to_string_inj hc))]
      rw [hcond]
      exact ih ns _ h2

theorem foldl_slot_const (ns : List Nat) : ∀ acc : Nat, (∀ x ∈ ns, acc < x) →
    ns.foldl (fun sector x => if x = sector then sector + 1 else sector) acc = acc := by
  induction ns with
  | nil => intro acc _; rfl
  | cons x ns ih =>
    intro acc h
    have hx : x ≠ acc := Nat.ne_of_gt (h x (List.mem_cons_self _ _))
    simp only [List.foldl_cons, if_neg hx]
    exact ih acc (fun y hy => h y (List.mem_cons_of_mem _ hy))

theorem foldl_slot_minfree (ns : List Nat) : ∀ acc : Nat, ns.Pairwise (· < ·) →
    (∀ x ∈ ns, acc ≤ x) →
    ns.foldl (fun sector x => if x = sector then sector + 1 else sector) acc ∉ ns
    ∧ acc ≤ ns.foldl (fun sector x => if x = sector then sector + 1 else sector) acc
    ∧ ∀ m, acc ≤ m →
        m < ns.foldl (fun sector x => if x = sector then sector + 1 else sector) acc → m ∈ ns := by
  induction ns with
  | nil =>
    intro acc _ _
    exact ⟨List.not_mem_nil _, le_rfl, fun m h1 h2 => absurd (h1.trans_lt h2) (lt_irrefl acc)⟩
  | cons x ns ih =>
    intro acc hp h
    have hx_lt : ∀ y ∈ ns, x < y := (List.pairwise_cons.mp hp).1
    have hp' := (List.pairwise_cons.mp hp).2
    simp only [List.foldl_cons]
    by_cases hxa : x = acc
    · subst hxa
      rw [if_pos rfl]
      obtain ⟨h1, h2, h3⟩ := ih (x + 1) hp' (fun y hy => hx_lt y hy)
      refine ⟨?_, by omega, ?_⟩
      · intro hmem
        rcases List.mem_cons.mp hmem with hh | hh
        · omega
        · exact h1 hh
      · intro m hm1 hm2
        by_cases hma : m = x
        · exact hma ▸ List.mem_cons_self _ _
        · exact List.mem_cons_of_mem _ (h3 m (by omega) hm2)
    · rw [if_neg hxa]
      have hax : acc < x := lt_of_le_of_ne (h x (List.mem_cons_self _ _)) (fun hc => hxa hc.symm)
      rw [foldl_slot_const ns acc (fun y hy => hax.trans (hx_lt y hy))]
      refine ⟨?_, le_rfl, ?_⟩
      · intro hmem
        rcases List.mem_cons.mp hmem with hh | hh
        · omega
        · have := hax.trans (hx_lt acc hh)
          omega
      · intro m h1 h2
        omega

theorem splitNl_cons (c : Char) (rest : List Char) :
    splitNl (c :: rest) = if c = '\n' then [] :: splitNl rest
      else (c :: (splitNl rest).headD []) :: (splitNl rest).tail := rfl

theorem splitNl_no_nl (cs : List Char) : ∀ l ∈ splitNl cs, '\n' ∉ l := by
  induction cs with
  | nil => simp [splitNl]
  | cons c rest ih =>
    rw [splitNl_cons]
    by_cases hc : c = '\n'
    · simp only [hc, if_pos rfl]
      intro l hl
      rcases List.mem_cons.mp hl with h | h
      · simp [h]
      · exact ih l h
    · rw [if_neg hc]
      cases hrec : splitNl rest with
      | nil =>
        intro l hl
        rcases List.mem_singleton.mp hl with rfl
        simp [hc, Ne.symm hc]
      | cons l0 ls =>
        simp only [List.headD_cons, List.tail_cons]
        intro l hl
        rcases List.mem_cons.mp hl with h | h
        · subst h
          have h0 : '\n' ∉ l0 := ih l0 (by rw [hrec]; exact List.mem_cons_self _ _)
          simp only [List.mem_cons]
          rintro (h | h)
          · exact hc h.symm
          · exact h0 h
        · exact ih l (by rw [hrec]; exact List.mem_cons_of_mem _ h)

theorem splitNl_append (l rest : List Char) (h : '\n' ∉ l) :
    splitNl (l ++ '\n' :: rest) = l :: splitNl rest := by
  induction l with
  | nil => rfl
  | cons c l ih =>
    have hc : c ≠ '\n' := fun hcc => h (by simp [hcc])
    have ih' := ih (fun hm => h (List.mem_cons_of_mem _ hm))
    show splitNl (c :: (l ++ '\n' :: rest)) = (c :: l) :: splitNl rest
    rw [splitNl_cons, if_neg hc, ih']
    simp

theorem splitNl_unsplitNl (ls : List (List Char)) (h : ∀ l ∈ ls, '\n' ∉ l) :
    splitNl (unsplitNl ls) = ls := by
  induction ls with
  | nil => rfl
  | cons l ls ih =>
    show splitNl (l ++ '\n' :: unsplitNl ls) = l :: ls
    rw [splitNl_append l _ (h l (List.mem_cons_self _ _)),
      ih (fun x hx => h x (List.mem_cons_of_mem _ hx))]

theorem linesOut_idem (d : String) : linesOut (linesOut d) = linesOut d := by
  unfold linesOut
  rw [show (String.mk (unsplitNl (splitNl d.data))).data = unsplitNl (splitNl d.data) from rfl,
    splitNl_unsplitNl _ (splitNl_no_nl d.data)]

theorem splitNl_single (cs : List Char) (h0 : cs ≠ []) (h : '\n' ∉ cs) :
    splitNl cs = [cs] := by
  induction cs with
  | nil => exact absurd rfl h0
  | cons c rest ih =>
    have hc : c ≠ '\n' := fun hcc => h (by simp [hcc])
    rw [splitNl_cons, if_neg hc]
    cases rest with
    | nil => rfl
    | cons c2 rest2 =>
      rw [ih (by simp) (fun hm => h (List.mem_cons_of_mem _ hm))]
      rfl

theorem linesOut_single (d : String) (h0 : d ≠ "") (h : '\n' ∉ d.data) :
    linesOut d = d ++ "\n" := by
  have hd : d.data ≠ [] := by
    intro hc
    exact h0 (by cases d; simp_all)
  unfold linesOut
  rw [splitNl_single d.data hd h]
  rfl

theorem splitAtLastSlash_of_no_slash (cs : List Char) (h : '/' ∉ cs) :
    splitAtLastSlash cs = none := by
  induction cs with
  | nil => rfl
  | cons c rest ih =>
    have hc : c ≠ '/' := fun hcc => h (by simp [hcc])
    unfold splitAtLastSlash
    rw [ih (fun hm => h (List.mem_cons_of_mem _ hm))]
    simp [hc]

theorem splitAtLastSlash_append (b a : List Char) (h : '/' ∉ a) :
    splitAtLastSlash (b ++ '/' :: a) = some (b, a) := by
  induction b with
  | nil =>
    show splitAtLastSlash ('/' :: a) = some ([], a)
    unfold splitAtLastSlash
    rw [splitAtLastSlash_of_no_slash a h]
    simp
  | cons c b ih =>
    show splitAtLastSlash (c :: (b ++ '/' :: a)) = some (c :: b, a)
    unfold splitAtLastSlash
    rw [ih]

theorem parseIndexLine_serialize (e : lemlibFile) (h : '/' ∉ e.sector.data) :
    parseIndexLine (String.mk (e.name.data ++ '/' :: e.sector.data)) = e := by
  unfold parseIndexLine
  rw [show (String.mk (e.name.data ++ '/' :: e.sector.data)).data
        = e.name.data ++ '/' :: e.sector.data from rfl,
    splitAtLastSlash_append _ _ h]

theorem digitChar_not_sep : ∀ d < 10, Nat.digitChar d ≠ '/' ∧ Nat.digitChar d ≠ '\n' := by
  decide

theorem to_string_data_sep_free (n : Nat) :
    '/' ∉ (to_string n).data ∧ '\n' ∉ (to_string n).data := by
  rw [to_string_eq_digits]
  have hall : ∀ c ∈ ((if n = 0 then [0] else Nat.digits 10 n).map Nat.digitChar).reverse,
      c ≠ '/' ∧ c ≠ '\n' := by
    intro c hc
    rw [List.mem_reverse] at hc
    obtain ⟨d, hd, rfl⟩ := List.mem_map.mp hc
    have hlt : d < 10 := by
      by_cases hk : n = 0
      · rw [if_pos hk] at hd
        simp at hd
        omega
      · rw [if_neg hk] at hd
        exact Nat.digits_lt_base (by norm_num) hd
    exact digitChar_not_sep d hlt
  exact ⟨fun hc => (hall '/' hc).1 rfl, fun hc => (hall '\n' hc).2 rfl⟩

theorem normalizePath_no_nl (p : String) (hp : '\n' ∉ p.data) :
    '\n' ∉ (normalizePath p).data := by
  unfold normalizePath
  split
  · exact hp
  · show '\n' ∉ ("/" ++ p).data
    rw [String.data_append]
    simp only [List.mem_append]
    rintro (hc | hc)
    · simp at hc
    · exact hp hc

theorem readFileIndex_serializeEntry (e : lemlibFile) (hn : '\n' ∉ e.name.data)
    (hs1 : '/' ∉ e.sector.data) (hs2 : '\n' ∉ e.sector.data) :
    readFileIndex (serializeEntry e) = [e] := by
  have hdata : (serializeEntry e).data
      = (e.name.data ++ '/' :: e.sector.data) ++ '\n' :: [] := by
    unfold serializeEntry
    rw [String.data_append, String.data_append, String.data_append]
    simp
  have hline : '\n' ∉ e.name.data ++ '/' :: e.sector.data := by
    simp only [List.mem_append, List.mem_cons]
    rintro (hm | hm | hm)
    · exact hn hm
    · exact absurd hm.symm (by decide)
    · exact hs2 hm
  unfold readFileIndex
  rw [hdata, splitNl_append _ _ hline]
  simp only [List.map_cons]
  rw [parseIndexLine_serialize e hs1]
  rfl

theorem readFileIndex_saveIndex (entries : List lemlibFile)
    (h : ∀ e ∈ entries, '/' ∉ e.sector.data ∧ '\n' ∉ e.sector.data ∧ '\n' ∉ e.name.data) :
    readFileIndex (saveIndex entries) = entries := by
  induction entries with
  | nil => rfl
  | cons e rest ih =>
    obtain ⟨h1, h2, h3⟩ := h e (List.mem_cons_self _ _)
    have hdata : (saveIndex (e :: rest)).data
        = (e.name.data ++ '/' :: e.sector.data) ++ '\n' :: (saveIndex rest).data := by
      show (serializeEntry e ++ saveIndex rest).data = _
      rw [String.data_append]
      unfold serializeEntry
      rw [String.data_append, String.data_append]
      simp
    have hline : '\n' ∉ e.name.data ++ '/' :: e.sector.data := by
      simp only [List.mem_append, List.mem_cons]
      rintro (hm | hm | hm)
      · exact h3 hm
      · exact absurd hm.symm (by decide)
      · exact h2 hm
    unfold readFileIndex
    rw [hdata, splitNl_append _ _ hline, List.map_cons, parseIndexLine_serialize e h1]
    have := ih (fun x hx => h x (List.mem_cons_of_mem _ hx))
    unfold readFileIndex at this
    rw [this]

theorem deleteFile_normalize (s : VFSState) (p : String) :
    deleteFile s (normalizePath p) = deleteFile s p := by
  unfold deleteFile
  rw [normalizePath_idem]

theorem deleteFile_of_exists (s : VFSState) (p : String) (h : fileExists s p = true) :
    deleteFile s p =
      (Except.ok (),
        ⟨s.index.filter (fun line => line.name ≠ normalizePath p),
         fun k => if k = (getFileSector s p).getD "" then "" else s.sectors k⟩) := by
  unfold deleteFile
  simp only [fileExists_normalize, getFileSector_normalize, h, if_true]

theorem deleteFile_of_not_exists (s : VFSState) (p : String) (h : fileExists s p = false) :
    deleteFile s p = (Except.error VFSError.fileNotFound, s) := by
  unfold deleteFile
  simp only [fileExists_normalize, h, Bool.false_eq_true, if_false]

theorem createFile_of_not_exists (s : VFSState) (p : String) (ow : Bool)
    (h : fileExists s p = false) :
    createFile s p ow
      = (Except.error VFSError.cannotOpenFile,
         ⟨s.index ++ readFileIndex (serializeEntry ⟨normalizePath p, to_string (allocate s.index)⟩),
          s.sectors⟩) := by
  unfold createFile
  simp only [fileExists_normalize, h, Bool.false_eq_true, if_false, createRest]

theorem createFile_of_exists_no_ow (s : VFSState) (p : String) (h : fileExists s p = true) :
    createFile s p false = (Except.error VFSError.fileAlreadyExists, s) := by
  unfold createFile
  simp only [fileExists_normalize, h, if_true, Bool.false_eq_true, if_false]

theorem createFile_of_exists_ow (s : VFSState) (p : String) (h : fileExists s p = true) :
    createFile s p true
      = (Except.error VFSError.cannotOpenFile,
         ⟨(deleteFile s p).2.index
            ++ readFileIndex
                (serializeEntry ⟨normalizePath p, to_string (allocate (deleteFile s p).2.index)⟩),
          (deleteFile s p).2.sectors⟩) := by
  unfold createFile
  simp only [fileExists_normalize, h, if_true, deleteFile_normalize, deleteFile_of_exists s p h,
    createRest]

theorem write_of_exists (s : VFSState) (p d : String) (h : fileExists s p = true) :
    write s p d
      = (Except.ok ((getFileSector s p).getD ""),
         ⟨s.index,
          fun k => if k = (getFileSector s p).getD "" then linesOut d else s.sectors k⟩) := by
  unfold write
  simp only [fileExists_normalize, getFileSector_normalize, h, if_true]

theorem write_of_not_exists (s : VFSState) (p d : String) (h : fileExists s p = false) :
    write s p d
      = (Except.error VFSError.cannotOpenFile,
         ⟨s.index ++ readFileIndex (serializeEntry ⟨normalizePath p, to_string (allocate s.index)⟩),
          s.sectors⟩) := by
  unfold write
  simp only [fileExists_normalize, h, Bool.false_eq_true, if_false]
  have hc : createFile s (normalizePath p) true
      = (Except.error VFSError.cannotOpenFile,
         ⟨s.index ++ readFileIndex (serializeEntry ⟨normalizePath p, to_string (allocate s.index)⟩),
          s.sectors⟩) := by
    rw [show createFile s (normalizePath p) true = createFile s p true from by
      unfold createFile
      rw [normalizePath_idem]]
    exact createFile_of_not_exists s p true h
  rw [hc]

theorem read_of_exists (s : VFSState) (p : String) (h : fileExists s p = true) :
    read s p = Except.ok (linesOut (s.sectors ((getFileSector s p).getD ""))) := by
  unfold read
  simp only [fileExists_normalize, getFileSector_normalize, h, if_true]

theorem read_of_not_exists (s : VFSState) (p : String) (h : fileExists s p = false) :
    read s p = Except.error VFSError.fileNotFound := by
  unfold read
  simp only [fileExists_normalize, h, Bool.false_eq_true, if_false]

theorem any_filter_ne (l : List lemlibFile) (q : String) :
    (l.filter (fun e => e.name ≠ q)).any (fun e => e.name = q) = false := by
  rw [List.any_eq_false]
  intro x hx
  have hm := List.mem_filter.mp hx
  simp only [decide_not, Bool.not_eq_true', decide_eq_false_iff_not] at hm
  simp [hm.2]

theorem mem_index_deleteFile (s : VFSState) (p : String) :
    ∀ e ∈ (deleteFile s p).2.index, e ∈ s.index := by
  intro e he
  cases hb : fileExists s p with
  | false =>
    rw [deleteFile_of_not_exists s p hb] at he
    exact he
  | true =>
    rw [deleteFile_of_exists s p hb] at he
    exact List.mem_of_mem_filter he

theorem mem_index_createFile (s : VFSState) (p : String) (ow : Bool) (hp : '\n' ∉ p.data) :
    ∀ e ∈ (createFile s p ow).2.index, e ∈ s.index ∨ e.name = normalizePath p := by
  intro e he
  have hclean : ∀ idx : List lemlibFile,
      readFileIndex (serializeEntry ⟨normalizePath p, to_string (allocate idx)⟩)
        = [⟨normalizePath p, to_string (allocate idx)⟩] := fun idx =>
    readFileIndex_serializeEntry _ (normalizePath_no_nl p hp)
      (to_string_data_sep_free _).1 (to_string_data_sep_free _).2
  cases hb : fileExists s p with
  | false =>
    rw [createFile_of_not_exists s p ow hb, hclean s.index] at he
    rcases List.mem_append.mp he with hm | hm
    · exact Or.inl hm
    · rcases List.mem_singleton.mp hm with rfl
      exact Or.inr rfl
  | true =>
    cases ow with
    | false =>
      rw [createFile_of_exists_no_ow s p hb] at he
      exact Or.inl he
    | true =>
      rw [createFile_of_exists_ow s p hb, hclean (deleteFile s p).2.index] at he
      rcases List.mem_append.mp he with hm | hm
      · exact Or.inl (mem_index_deleteFile s p e hm)
      · rcases List.mem_singleton.mp hm with rfl
        exact Or.inr rfl

theorem mem_index_write (s : VFSState) (p d : String) (hp : '\n' ∉ p.data) :
    ∀ e ∈ (write s p d).2.index, e ∈ s.index ∨ e.name = normalizePath p := by
  intro e he
  cases hb : fileExists s p with
  | true =>
    rw [write_of_exists s p d hb] at he
    exact Or.inl he
  | false =>
    rw [write_of_not_exists s p d hb,
      readFileIndex_serializeEntry _ (normalizePath_no_nl p hp)
        (to_string_data_sep_free _).1 (to_string_data_sep_free _).2] at he
    rcases List.mem_append.mp he with hm | hm
    · exact Or.inl hm
    · rcases List.mem_singleton.mp hm with rfl
      exact Or.inr rfl

/-- C1: the claim says `create` on a fresh path allocates a slot, appends the
entry, persists the index, truncates the slot's backing storage, and returns
the slot (`0` on a fresh file system).  The code appends the entry but then
tests `sectorFile.is_open()` on a default-constructed stream before calling
`open`, so it always throws `CANNOT_OPEN_FILE`: the sector file is never
created and no slot is returned.  This theorem evaluates the embedding at the
claim's own scenario. -/
theorem createFile_fresh_always_throws :
    (createFile initialState "/log.txt" true).1 = Except.error VFSError.cannotOpenFile
    ∧ (createFile initialState "/log.txt" true).2.index = [⟨"/log.txt", "0"⟩]
    ∧ (createFile initialState "/log.txt" true).2.sectors = initialState.sectors :=
  ⟨by decide, by decide, rfl⟩

/-- C2 counterexample: slot allocation is a single in-order pass, not the
least unused integer.  With slots `{0,1,3}` inserted in the order `1,0,3` the
pass returns `1`, whose decimal form is already in use, while `2` is free. -/
theorem allocate_order_dependent_cex :
    allocate [⟨"/a", "1"⟩, ⟨"/b", "0"⟩, ⟨"/c", "3"⟩] = 1
    ∧ "1" ∈ [(⟨"/a", "1"⟩ : lemlibFile), ⟨"/b", "0"⟩, ⟨"/c", "3"⟩].map lemlibFile.sector
    ∧ to_string 2 ∉ [(⟨"/a", "1"⟩ : lemlibFile), ⟨"/b", "0"⟩, ⟨"/c", "3"⟩].map lemlibFile.sector := by
  decide

/-- C2 (amended): when the entries' slot strings are the decimal forms of a
strictly increasing integer sequence, the single-pass scan does return the
smallest non-negative integer not used by any entry — both as an integer
against the sequence and as a decimal string against the stored slots. -/
theorem allocate_minfree_sorted (entries : List lemlibFile) (ns : List Nat)
    (hmap : entries.map lemlibFile.sector = ns.map to_string)
    (hsorted : ns.Pairwise (· < ·)) :
    allocate entries ∉ ns
    ∧ (∀ m, m < allocate entries → m ∈ ns)
    ∧ to_string (allocate entries) ∉ entries.map lemlibFile.sector
    ∧ ∀ m, m < allocate entries → to_string m ∈ entries.map lemlibFile.sector := by
  have halloc : allocate entries
      = ns.foldl (fun sector x => if x = sector then sector + 1 else sector) 0 :=
    allocate_congr_map entries ns 0 hmap
  obtain ⟨h1, _, h3⟩ := foldl_slot_minfree ns 0 hsorted (fun x _ => Nat.zero_le x)
  rw [← halloc] at h1 h3
  have hmem : ∀ m, m < allocate entries → m ∈ ns := fun m hm => h3 m (Nat.zero_le m) hm
  refine ⟨h1, hmem, ?_, ?_⟩
  · intro hc
    rw [hmap] at hc
    obtain ⟨x, hx, hxe⟩ := List.mem_map.mp hc
    exact h1 (to_string_inj hxe ▸ hx)
  · intro m hm
    rw [hmap]
    exact List.mem_map.mpr ⟨m, hmem m hm, rfl⟩

/-- C2 witness: with slots `0,1,3` in increasing insertion order the scan
allocates `2`, the least unused slot; deleting the slot-`2` entry restores
the same index, so the following allocation is `2` again. -/
theorem allocate_minfree_sorted_witness :
    (allocate [⟨"/a", "0"⟩, ⟨"/b", "1"⟩, ⟨"/c", "3"⟩] ∉ ([0, 1, 3] : List Nat)
     ∧ (∀ m, m < allocate [⟨"/a", "0"⟩, ⟨"/b", "1"⟩, ⟨"/c", "3"⟩] → m ∈ ([0, 1, 3] : List Nat))
     ∧ to_string (allocate [⟨"/a", "0"⟩, ⟨"/b", "1"⟩, ⟨"/c", "3"⟩])
         ∉ [(⟨"/a", "0"⟩ : lemlibFile), ⟨"/b", "1"⟩, ⟨"/c", "3"⟩].map lemlibFile.sector
     ∧ ∀ m, m < allocate [⟨"/a", "0"⟩, ⟨"/b", "1"⟩, ⟨"/c", "3"⟩] →
         to_string m ∈ [(⟨"/a", "0"⟩ : lemlibFile), ⟨"/b", "1"⟩, ⟨"/c", "3"⟩].map lemlibFile.sector)
    ∧ allocate [⟨"/a", "0"⟩, ⟨"/b", "1"⟩, ⟨"/c", "3"⟩] = 2 :=
  ⟨allocate_minfree_sorted [⟨"/a", "0"⟩, ⟨"/b", "1"⟩, ⟨"/c", "3"⟩] [0, 1, 3]
      (by decide) (by decide),
   by decide⟩

/-- C3 counterexample: with entries `/a/b`, `/a/c`, `/a/d/e`, listing `"/a"`
non-recursively yields `["/"]`, not `["b", "c", "d/"]`: the remainder after
removing the first occurrence of `"/a"` keeps its leading separator, so every
remainder collapses to `"/"` and deduplication leaves one element. -/
theorem listDirectory_cex :
    listDirectory ⟨[⟨"/a/b", "0"⟩, ⟨"/a/c", "1"⟩, ⟨"/a/d/e", "2"⟩], fun _ => ""⟩ "/a" false
      = ["/"]
    ∧ (["/"] : List String) ≠ ["b", "c", "d/"] := by
  decide

/-- C3 (amended): with entries `/a/b`, `/a/c`, `/a/d/e`, the claimed sequences
`["b", "c", "d/"]` and `["b", "c", "d/e"]` are produced for the directory
argument `"/a/"`; for `"/a"` the recursive listing yields the remainders with
their leading separator, `["/b", "/c", "/d/e"]`, in first-seen order. -/
theorem listDirectory_example_amended :
    listDirectory ⟨[⟨"/a/b", "0"⟩, ⟨"/a/c", "1"⟩, ⟨"/a/d/e", "2"⟩], fun _ => ""⟩ "/a/" false
      = ["b", "c", "d/"]
    ∧ listDirectory ⟨[⟨"/a/b", "0"⟩, ⟨"/a/c", "1"⟩, ⟨"/a/d/e", "2"⟩], fun _ => ""⟩ "/a/" true
      = ["b", "c", "d/e"]
    ∧ listDirectory ⟨[⟨"/a/b", "0"⟩, ⟨"/a/c", "1"⟩, ⟨"/a/d/e", "2"⟩], fun _ => ""⟩ "/a" true
      = ["/b", "/c", "/d/e"] := by
  decide

/-- C4 counterexample: `d = ""` has no embedded line breaks, yet writing it
stores zero lines, so reading back returns `""`, not `"" ++ "\n"`. -/
theorem read_write_empty_cex :
    read (write ⟨[⟨"/p", "0"⟩], fun _ => ""⟩ "/p" "").2 "/p" = Except.ok ""
    ∧ Except.ok "" ≠ (Except.ok ("" ++ "\n") : Except VFSError String) := by
  refine ⟨by decide, by decide⟩

/-- C4 (amended): on a path that already has an entry, reading after writing
`d` returns every `getline` line of `d` with a line break appended
(`linesOut d`); in particular, for non-empty `d` with no embedded line break
it returns exactly `d` followed by one line break. -/
theorem read_write_roundtrip (s : VFSState) (p d : String) (h : fileExists s p = true) :
    read (write s p d).2 p = Except.ok (linesOut d)
    ∧ (d ≠ "" → '\n' ∉ d.data → read (write s p d).2 p = Except.ok (d ++ "\n")) := by
  have hmain : read (write s p d).2 p = Except.ok (linesOut d) := by
    rw [write_of_exists s p d h]
    have hex : fileExists
        (⟨s.index, fun k => if k = (getFileSector s p).getD "" then linesOut d
          else s.sectors k⟩ : VFSState) p = true := h
    rw [read_of_exists _ p hex]
    have hsec : getFileSector
        (⟨s.index, fun k => if k = (getFileSector s p).getD "" then linesOut d
          else s.sectors k⟩ : VFSState) p = getFileSector s p := rfl
    rw [hsec]
    show Except.ok (linesOut (if (getFileSector s p).getD "" = (getFileSector s p).getD ""
      then linesOut d else s.sectors ((getFileSector s p).getD ""))) = Except.ok (linesOut d)
    rw [if_pos rfl, linesOut_idem]
  exact ⟨hmain, fun h0 hnl => by rw [hmain, linesOut_single d h0 hnl]⟩

/-- C4 witness: writing `"hello"` to an existing path and reading it back
yields `"hello" ++ "\n"`. -/
theorem read_write_roundtrip_witness :
    fileExists ⟨[⟨"/p", "0"⟩], fun _ => ""⟩ "/p" = true
    ∧ read (write ⟨[⟨"/p", "0"⟩], fun _ => ""⟩ "/p" "hello").2 "/p"
        = Except.ok ("hello" ++ "\n") :=
  ⟨by decide,
   (read_write_roundtrip ⟨[⟨"/p", "0"⟩], fun _ => ""⟩ "/p" "hello" (by decide)).2
     (by decide) (by decide)⟩

/-- C5: the claim says `write` on an absent path first creates it and then
always succeeds, returning the new slot.  The code does call
`createFile(filePath)` first, but that call always throws `CANNOT_OPEN_FILE`
(see C1), which `write` propagates: the entry is appended to the index (so
the path exists afterwards) yet the data is never written and no slot is
returned.  This theorem evaluates the embedding at the failing input. -/
theorem write_fresh_always_throws :
    (write initialState "/log.txt" "hello").1 = Except.error VFSError.cannotOpenFile
    ∧ (write initialState "/log.txt" "hello").2.index = [⟨"/log.txt", "0"⟩]
    ∧ fileExists (write initialState "/log.txt" "hello").2 "/log.txt" = true
    ∧ (write initialState "/log.txt" "hello").2.sectors "0" = "" :=
  ⟨by decide, by decide, by decide, rfl⟩

/-- C6: `delete` fails with `FileNotFound` exactly when no entry matches the
normalized path; on success it truncates the matched entry's sector content
to empty, removes exactly the matching entry (the result is a sublist of the
original index, so order is preserved and nothing is added, and every entry
with a different name is kept), the path no longer exists, and a second
delete of the same path fails with `FileNotFound`. -/
theorem deleteFile_spec (s : VFSState) (p : String) :
    ((deleteFile s p).1 = Except.error VFSError.fileNotFound ↔ fileExists s p = false)
    ∧ (fileExists s p = true →
        (deleteFile s p).1 = Except.ok ()
        ∧ (deleteFile s p).2.sectors ((getFileSector s p).getD "") = ""
        ∧ fileExists (deleteFile s p).2 p = false
        ∧ (deleteFile (deleteFile s p).2 p).1 = Except.error VFSError.fileNotFound
        ∧ (deleteFile s p).2.index.Sublist s.index
        ∧ ∀ e ∈ s.index, e.name ≠ normalizePath p → e ∈ (deleteFile s p).2.index) := by
  cases hb : fileExists s p with
  | false =>
    rw [deleteFile_of_not_exists s p hb]
    exact ⟨by simp [hb], fun hc => by simp [hb] at hc⟩
  | true =>
    have hafter : fileExists (deleteFile s p).2 p = false := by
      rw [deleteFile_of_exists s p hb]
      exact any_filter_ne s.index (normalizePath p)
    constructor
    · rw [deleteFile_of_exists s p hb]
      simp [hb]
    · intro _
      refine ⟨by rw [deleteFile_of_exists s p hb], ?_, hafter, ?_, ?_, ?_⟩
      · rw [deleteFile_of_exists s p hb]
        exact if_pos rfl
      · rw [deleteFile_of_not_exists _ p hafter]
      · rw [deleteFile_of_exists s p hb]
        exact List.filter_sublist s.index
      · intro e he hne
        rw [deleteFile_of_exists s p hb]
        exact List.mem_filter.mpr ⟨he, by simp [hne]⟩

/-- C6 witness: deleting `/a` from a two-entry index succeeds and truncates
its sector. -/
theorem deleteFile_spec_witness :
    fileExists ⟨[⟨"/a", "0"⟩, ⟨"/b", "1"⟩], fun _ => "x"⟩ "/a" = true
    ∧ (deleteFile ⟨[⟨"/a", "0"⟩, ⟨"/b", "1"⟩], fun _ => "x"⟩ "/a").1 = Except.ok ()
    ∧ (deleteFile ⟨[⟨"/a", "0"⟩, ⟨"/b", "1"⟩], fun _ => "x"⟩ "/a").2.sectors
        ((getFileSector ⟨[⟨"/a", "0"⟩, ⟨"/b", "1"⟩], fun _ => "x"⟩ "/a").getD "") = "" :=
  ⟨by decide,
   ((deleteFile_spec ⟨[⟨"/a", "0"⟩, ⟨"/b", "1"⟩], fun _ => "x"⟩ "/a").2 (by decide)).1,
   ((deleteFile_spec ⟨[⟨"/a", "0"⟩, ⟨"/b", "1"⟩], fun _ => "x"⟩ "/a").2 (by decide)).2.1⟩

/-- C7: `create(p, overwrite := false)` on an existing path throws
`FILE_ALREADY_EXISTS` and leaves the whole state — index and every sector's
content — untouched. -/
theorem create_no_overwrite_spec (s : VFSState) (p : String) (h : fileExists s p = true) :
    (createFile s p false).1 = Except.error VFSError.fileAlreadyExists
    ∧ (createFile s p false).2 = s := by
  rw [createFile_of_exists_no_ow s p h]
  exact ⟨rfl, rfl⟩

/-- C7 witness: creating `/a` without overwrite over an existing `/a` fails
and preserves the state. -/
theorem create_no_overwrite_spec_witness :
    fileExists ⟨[⟨"/a", "0"⟩], fun _ => "x"⟩ "/a" = true
    ∧ (createFile ⟨[⟨"/a", "0"⟩], fun _ => "x"⟩ "/a" false).1
        = Except.error VFSError.fileAlreadyExists
    ∧ (createFile ⟨[⟨"/a", "0"⟩], fun _ => "x"⟩ "/a" false).2
        = (⟨[⟨"/a", "0"⟩], fun _ => "x"⟩ : VFSState) :=
  ⟨by decide,
   (create_no_overwrite_spec ⟨[⟨"/a", "0"⟩], fun _ => "x"⟩ "/a" (by decide)).1,
   (create_no_overwrite_spec ⟨[⟨"/a", "0"⟩], fun _ => "x"⟩ "/a" (by decide)).2⟩

/-- C9 counterexample: `createFile` on `"//x"` (reachable in one step from the
empty state) stores the path `"//x"`, which begins with two separators, so
"exactly one leading separator" fails; the normalizer only prepends a
separator when the first character is not one and never collapses repeats. -/
theorem reachable_double_slash_cex :
    (createFile initialState "//x" true).2.index.map lemlibFile.name = ["//x"]
    ∧ ("//x" : String).data.take 2 = ['/', '/'] := by
  decide

/-- C9 (amended): in every state reachable from the empty state through
`create`, `write` and `delete` where every path handed to `create` and
`write` contains no line break, every path stored in the index is a
non-empty string whose first character is the separator `'/'` (at least one
leading separator; repeated leading separators are preserved).  Both caveats
are forced: `create("//x")` stores `"//x"` (two leading separators), and
without the line-break restriction `create("x\ny")` appends bytes that parse
back as entries named `""` and `"y"` (see the evaluation theorem below). -/
theorem reachable_index_names (s : VFSState) (h : Reachable s) :
    ∀ e ∈ s.index, e.name ≠ "" ∧ e.name.data.head? = some '/' := by
  induction h with
  | init => intro e he; simp [initialState] at he
  | create p ow hp _ ih =>
    intro e he
    rcases mem_index_createFile _ p ow hp e he with hm | hn
    · exact ih e hm
    · rw [hn]
      exact ⟨normalizePath_ne_empty p, normalizePath_head p⟩
  | deleteStep p _ ih =>
    intro e he
    exact ih e (mem_index_deleteFile _ p e he)
  | writeStep p d hp _ ih =>
    intro e he
    rcases mem_index_write _ p d hp e he with hm | hn
    · exact ih e hm
    · rw [hn]
      exact ⟨normalizePath_ne_empty p, normalizePath_head p⟩

/-- C9 witness: the entry stored by `createFile` on `"/x"` from the empty
state has a non-empty name starting with the separator. -/
theorem reachable_index_names_witness :
    (⟨"/x", "0"⟩ : lemlibFile).name ≠ ""
    ∧ (⟨"/x", "0"⟩ : lemlibFile).name.data.head? = some '/' :=
  reachable_index_names (createFile initialState "/x" true).2
    (Reachable.create "/x" true (by decide) Reachable.init) ⟨"/x", "0"⟩ (by decide)

/-- Evaluation of the mangling that bounds the C9 invariant: `create` on a
path containing a line break appends the bytes `"/x\ny/0\n"`, which the
index parser reads back as two records, one with an empty name and one whose
name has no leading separator. -/
theorem createFile_newline_path_mangles :
    (createFile initialState "x\ny" true).2.index = [⟨"", "x"⟩, ⟨"y", "0"⟩] := by
  decide

/-- C10: `write` on a path with a live entry leaves the index unchanged,
returns that entry's slot, and changes no sector content other than that
slot's. -/
theorem write_existing_frame (s : VFSState) (p d : String) (h : fileExists s p = true) :
    (write s p d).2.index = s.index
    ∧ (write s p d).1 = Except.ok ((getFileSector s p).getD "")
    ∧ ∀ k, k ≠ (getFileSector s p).getD "" → (write s p d).2.sectors k = s.sectors k := by
  rw [write_of_exists s p d h]
  exact ⟨rfl, rfl, fun k hk => if_neg hk⟩

/-- C10 witness: writing to the existing `/a` keeps the index and the other
sector's content. -/
theorem write_existing_frame_witness :
    fileExists ⟨[⟨"/a", "0"⟩, ⟨"/b", "1"⟩], fun _ => "y"⟩ "/a" = true
    ∧ (write ⟨[⟨"/a", "0"⟩, ⟨"/b", "1"⟩], fun _ => "y"⟩ "/a" "x").2.index
        = (⟨[⟨"/a", "0"⟩, ⟨"/b", "1"⟩], fun _ => "y"⟩ : VFSState).index :=
  ⟨by decide,
   (write_existing_frame ⟨[⟨"/a", "0"⟩, ⟨"/b", "1"⟩], fun _ => "y"⟩ "/a" "x" (by decide)).1⟩

/-- C8 counterexample: the claim restricts only the slot strings; an entry
whose path contains a line break satisfies that hypothesis, yet the saved
line splits into two records on load and the round trip fails. -/
theorem saveIndex_roundtrip_cex :
    (∀ e ∈ [(⟨"a\nb", "0"⟩ : lemlibFile)], '/' ∉ e.sector.data)
    ∧ readFileIndex (saveIndex [⟨"a\nb", "0"⟩]) ≠ [(⟨"a\nb", "0"⟩ : lemlibFile)] := by
  decide

/-- C8 witness: a round trip through save and load preserves entries whose
paths contain separators, given separator-free slots and break-free fields. -/
theorem readFileIndex_saveIndex_witness :
    readFileIndex (saveIndex [⟨"/a/b", "10"⟩, ⟨"/c", "2"⟩]) = [⟨"/a/b", "10"⟩, ⟨"/c", "2"⟩] :=
  readFileIndex_saveIndex [⟨"/a/b", "10"⟩, ⟨"/c", "2"⟩] (by decide)

end LemLibFS
